import Mathlib

/-!
A shallow embedding of the lazy tree cache implemented by `TreeViewModel` and
`TreeWidget` in `src/uawidgets/tree_widget.py`, together with proofs about it.

Modelling choices:
* Strings that only serve as opaque labels or as comparable sort keys
  (display names, browse names, node-id strings) are modelled as `Nat`.
  The program only ever compares them for equality and order.
* The remote OPC-UA server, reached through `asyncua` `Node` handles, is an
  explicit deterministic oracle `NodeSource`.  A `Node` handle is modelled as
  a `Nat` (its identity).  `get_children_descriptions` may fail (raise
  `UaError`), modelled by an `Option` result; the other accessors used by the
  widget are modelled as total.
* The Qt `QStandardItemModel` tree of items is the rose tree `Entry`; a
  `QModelIndex` is either the invalid index (`none`) or the list of row
  positions from the top-level item (`some path`).  A fallible operation
  returns `none` when the Python code would raise.
* Icon selection (`_add_icon_to_item`) and the text columns' rendering are
  presentation only and are not modelled; the per-item data that the cache
  logic reads (the texts from the `ReferenceDescription` and the `Node`
  stored at `Qt.UserRole`) is kept.
* The counter `calls` counts invocations of
  `NodeSource.get_children_descriptions` (successful or failing), so that
  statements of the form "issues no further calls to the source" can be
  expressed.
-/

namespace TreeModel

/-- A `ReferenceDescription` as used by the widget: `DisplayName`,
`BrowseName` and `NodeId` rendered to comparable keys.  `NodeClass` and
`TypeDefinition` only drive icon selection and are omitted. -/
structure Desc where
  dname : Nat
  bname : Nat
  nid : Nat
deriving DecidableEq, Repr

/-- One item row of the `QStandardItemModel` tree: the three column texts
(from the description) plus the `Node` handle stored at `Qt.UserRole` and the
child rows. -/
inductive Entry : Type where
  | mk (dname bname nid node : Nat) (children : List Entry)

def Entry.dname : Entry → Nat | .mk d _ _ _ _ => d

def Entry.bname : Entry → Nat | .mk _ b _ _ _ => b

def Entry.nid : Entry → Nat | .mk _ _ i _ _ => i

def Entry.node : Entry → Nat | .mk _ _ _ n _ => n

def Entry.children : Entry → List Entry | .mk _ _ _ _ cs => cs

/-- The external OPC-UA server as seen through the `asyncua` calls the widget
makes on `Node` handles. `descs` is `get_children_descriptions` (`none`
models a raised `UaError`); `child` is `get_child` by browse-name string;
`bnameOf`, `dnameOf`, `nidOf` are `get_browse_name`, `get_display_name` and
`nodeid` rendered `to_string`, as used by `_get_node_desc` and
`get_current_path`. -/
structure NodeSource where
  descs : Nat → Option (List Desc)
  child : Nat → Nat → Nat
  bnameOf : Nat → Nat
  dnameOf : Nat → Nat
  nidOf : Nat → Nat

/-- The mutable state of `TreeViewModel`: the tree of items (at most one
top-level row, appended by `set_root_node`), the `_fetched` list of `Node`
handles, and the running count of `get_children_descriptions` calls. -/
structure CacheState where
  root : Option Entry
  fetched : List Nat
  calls : Nat

/-- Navigate from an item along a list of row positions
(the `QModelIndex` path). -/
def findAt : Entry → List Nat → Option Entry
  | e, [] => some e
  | e, j :: rest =>
    match e.children[j]? with
    | none => none
    | some c => findAt c rest

/-- Resolve a `QModelIndex` (`none` = the invalid index) to the item it
denotes in the current tree. -/
def resolve (s : CacheState) : Option (List Nat) → Option Entry
  | none => none
  | some p => s.root.bind (fun rt => findAt rt p)

mutual

/-- All `Node` handles stored in a subtree, in depth-first order. -/
def allNodes : Entry → List Nat
  | .mk _ _ _ n cs => n :: allNodesL cs

def allNodesL : List Entry → List Nat
  | [] => []
  | c :: cs => allNodes c ++ allNodesL cs

end

mutual

/-- `parent.appendRow` effects of one `fetchMore` run: append `es` to the
children of the item at `path`, leaving every other item in place. -/
def appendChildrenAt : Entry → List Nat → List Entry → Entry
  | .mk d b i n cs, [], es => .mk d b i n (cs ++ es)
  | .mk d b i n cs, j :: rest, es => .mk d b i n (appendChildrenAtL cs j rest es)

def appendChildrenAtL : List Entry → Nat → List Nat → List Entry → List Entry
  | [], _, _, _ => []
  | c :: cs, 0, rest, es => appendChildrenAt c rest es :: cs
  | c :: cs, j + 1, rest, es => c :: appendChildrenAtL cs j rest es

end

/-- Stable insertion of a description into a list sorted by `bname`:
the new element goes in front of the first element whose key is not
smaller. -/
def insertDesc (a : Desc) : List Desc → List Desc
  | [] => [a]
  | b :: l => if a.bname ≤ b.bname then a :: b :: l else b :: insertDesc a l

/-- The effect of `descriptions.sort(key=lambda x: x.BrowseName)`: a stable
sort by browse name.  Python's sort is stable, and a stable sort by a key is
uniquely determined by sortedness, permutation and key-fibre preservation,
all proved below, so any stable sorting algorithm is a faithful model. -/
def sortDescs : List Desc → List Desc
  | [] => []
  | a :: l => insertDesc a (sortDescs l)

/-- `add_item_with_parent`: the child item built for one description, whose
`Qt.UserRole` node is obtained by `parent_node.get_child` on the browse-name
string and whose column texts come from the description. -/
def childEntry (src : NodeSource) (pn : Nat) (d : Desc) : Entry :=
  Entry.mk d.dname d.bname d.nid (src.child pn d.bname) []

/-- `TreeViewModel.canFetchMore`: the invalid index is not fetchable;
otherwise, if the node at the index is not yet in `_fetched`, it is appended
to `_fetched` (before any fetch happens) and `True` is returned.  A valid
index always resolves in Qt; an unresolvable path is modelled as the
invalid-index behaviour. -/
def canFetchMore (s : CacheState) (idx : Option (List Nat)) : Bool × CacheState :=
  match idx with
  | none => (false, s)
  | some p =>
    match s.root with
    | none => (false, s)
    | some rt =>
      match findAt rt p with
      | none => (false, s)
      | some e =>
        if e.node ∈ s.fetched then (false, s)
        else (true, { s with fetched := s.fetched ++ [e.node] })

/-- `TreeViewModel.hasChildren`: `True` for the invalid index; otherwise a
fresh `get_children_descriptions` round-trip decides the answer every time
(`none` models the raised `UaError`).  The cache is neither read nor
written, apart from the call counter. -/
def hasChildren (src : NodeSource) (s : CacheState) (idx : Option (List Nat)) :
    Option Bool × CacheState :=
  match idx with
  | none => (some true, s)
  | some p =>
    match s.root with
    | none => (none, s)
    | some rt =>
      match findAt rt p with
      | none => (none, s)
      | some e =>
        match src.descs e.node with
        | none => (none, { s with calls := s.calls + 1 })
        | some l => (some (!l.isEmpty), { s with calls := s.calls + 1 })

/-- `TreeViewModel.fetchMore`: query the children descriptions of the node at
the index, sort them stably by browse name, and append one child item per
description.  On a raised `UaError` nothing is appended.  Qt only invokes
this after `canFetchMore` returned `True`, so the index resolves; other
inputs are modelled as a no-op failure. -/
def fetchMore (src : NodeSource) (s : CacheState) (idx : Option (List Nat)) :
    Option Unit × CacheState :=
  match idx with
  | none => (none, s)
  | some p =>
    match s.root with
    | none => (none, s)
    | some rt =>
      match findAt rt p with
      | none => (none, s)
      | some e =>
        match src.descs e.node with
        | none => (none, { s with calls := s.calls + 1 })
        | some ds =>
          let es := (sortDescs ds).map (childEntry src e.node)
          (some (), { s with calls := s.calls + 1,
                             root := some (appendChildrenAt rt p es) })

/-- The `children_of` consumer operation of the lazy tree: the Qt view's
driving protocol around the model, calling `canFetchMore`, then `fetchMore`
when it returned `True`, then reading the child rows of the index. -/
def children_of (src : NodeSource) (s : CacheState) (idx : Option (List Nat)) :
    Option (List Entry) × CacheState :=
  let c := canFetchMore s idx
  if c.1 then
    let f := fetchMore src c.2 idx
    match f.1 with
    | none => (none, f.2)
    | some _ => ((resolve f.2 idx).map Entry.children, f.2)
  else ((resolve c.2 idx).map Entry.children, c.2)

/-- `TreeViewModel.reset_cache`: remove the node from `_fetched`
(`list.remove` drops the first occurrence; absence is ignored).  The item
tree is not touched. -/
def reset_cache (s : CacheState) (n : Nat) : CacheState :=
  { s with fetched := s.fetched.erase n }

/-- `TreeViewModel.clear`: remove all rows and empty `_fetched`. -/
def clearModel (s : CacheState) : CacheState :=
  { root := none, fetched := [], calls := s.calls }

/-- `TreeViewModel.set_root_node`: build the root description via
`_get_node_desc` (display name, browse name and node id queried from the
node) and append it as the single top-level item.  The code asserts that
`_fetched` is empty; the field is kept unchanged. -/
def set_root_node (src : NodeSource) (s : CacheState) (n : Nat) : CacheState :=
  { root := some (Entry.mk (src.dnameOf n) (src.bnameOf n) (src.nidOf n) n []),
    fetched := s.fetched, calls := s.calls }

/-- `TreeWidget.set_root_node`: `model.clear()` followed by
`model.set_root_node(node)`. -/
def tw_set_root_node (src : NodeSource) (s : CacheState) (n : Nat) : CacheState :=
  set_root_node src (clearModel s) n

/-- The browse names collected by the `get_current_path` loop for the chain
of items from `e` down along `path`, top first: one
`node.get_browse_name().to_string()` source round-trip per item on the
chain.  `none` when the path does not resolve. -/
def pathNames (src : NodeSource) : Entry → List Nat → Option (List Nat)
  | e, [] => some [src.bnameOf e.node]
  | e, j :: rest =>
    match e.children[j]? with
    | none => none
    | some c => (pathNames src c rest).map (fun l => src.bnameOf e.node :: l)

/-- `TreeWidget.get_current_path`: walk parent links from the current item
upward, querying each node's browse name from the source and prepending it.
Returns the names together with the number of source round-trips made.  An
invalid current index yields no item and an empty path. -/
def get_current_path (src : NodeSource) (s : CacheState) (idx : Option (List Nat)) :
    List Nat × Nat :=
  match idx with
  | none => ([], 0)
  | some p =>
    match s.root with
    | none => ([], 0)
    | some rt =>
      match pathNames src rt p with
      | none => ([], 0)
      | some l => (l, l.length)

/-- One consumer-driven interaction with the model, for reasoning about all
reachable cache states: a `has_children` query or a `children_of` expansion
at some index. -/
inductive QOp : Type where
  | hasC (idx : Option (List Nat))
  | childrenOf (idx : Option (List Nat))

/-- The state after one interaction. -/
def applyOp (src : NodeSource) (s : CacheState) : QOp → CacheState
  | .hasC idx => (hasChildren src s idx).2
  | .childrenOf idx => (children_of src s idx).2

/-- The state after a sequence of interactions. -/
def run (src : NodeSource) : List QOp → CacheState → CacheState
  | [], s => s
  | op :: ops, s => run src ops (applyOp src s op)

/-- The structural well-formedness the fetch protocol maintains on the item
tree, relative to the `_fetched` list: an item whose node was never fetched
has no child rows, and every child row's node was obtained from its parent's
node by `get_child` on the child's browse name. -/
inductive Good (src : NodeSource) (f : List Nat) : Entry → Prop where
  | intro (d b i n : Nat) (cs : List Entry) :
      (n ∉ f → cs = []) →
      (∀ c ∈ cs, Entry.node c = src.child n (Entry.bname c)) →
      (∀ c ∈ cs, Good src f c) →
      Good src f (Entry.mk d b i n cs)

/-- Assumptions on the external namespace under which browsing cannot alias:
`get_child` resolves distinct (parent node, browse name) pairs to distinct
nodes, never resolves to the root node `r0`, and each successful
`get_children_descriptions` answer carries pairwise distinct browse names. -/
def SourceOK (src : NodeSource) (r0 : Nat) : Prop :=
  (∀ q b q' b', src.child q b = src.child q' b' → q = q' ∧ b = b') ∧
  (∀ q b, src.child q b ≠ r0) ∧
  (∀ q l, src.descs q = some l → (l.map Desc.bname).Nodup)

/-- The inductive invariant: the tree is rooted at `r0`, structurally
well-formed w.r.t. `_fetched`, holds pairwise distinct node identities, and
`_fetched` only mentions nodes present in the tree. -/
def InvS (src : NodeSource) (r0 : Nat) (s : CacheState) : Prop :=
  ∃ rt, s.root = some rt ∧ rt.node = r0 ∧ Good src s.fetched rt ∧
    (allNodes rt).Nodup ∧ ∀ n ∈ s.fetched, n ∈ allNodes rt

/-- The state of a freshly constructed `TreeViewModel` (constructor plus the
initial `clear()` done by `TreeWidget.__init__`). -/
def initState : CacheState := { root := none, fetched := [], calls := 0 }

/-- A concrete source whose `get_children_descriptions` always raises. -/
def failSrc : NodeSource := ⟨fun _ => none, fun q b => q * 10 + b, id, id, id⟩

/-- A concrete source: one child (browse name 1) under node 0, none below. -/
def oneSrc : NodeSource :=
  ⟨fun n => if n = 0 then some [⟨1, 1, 1⟩] else some [], fun q b => q * 10 + b, id, id, id⟩

/-- A concrete source: two children under node 0, arriving in descending
browse-name order. -/
def twoSrc : NodeSource :=
  ⟨fun n => if n = 0 then some [⟨2, 2, 2⟩, ⟨1, 1, 1⟩] else some [],
    fun q b => q * 10 + b, id, id, id⟩

/-- A concrete childless source whose browse-name query is distinguishable
from the node number. -/
def pathSrc : NodeSource := ⟨fun _ => some [], fun q b => q * 10 + b, fun n => n + 100, id, id⟩

/-- A concrete childless source whose resolver is provably aliasing-free. -/
def okSrc : NodeSource := ⟨fun _ => some [], fun q b => Nat.pair q b + 1, id, id, id⟩

/-- A concrete source where every node reports an empty child list. -/
def emptySrc : NodeSource := ⟨fun _ => some [], fun q b => q * 10 + b, id, id, id⟩

/-! Basic simp lemmas for the embedding. -/

@[simp] theorem Entry.dname_mk (d b i n : Nat) (cs : List Entry) :
    (Entry.mk d b i n cs).dname = d := rfl

@[simp] theorem Entry.bname_mk (d b i n : Nat) (cs : List Entry) :
    (Entry.mk d b i n cs).bname = b := rfl

@[simp] theorem Entry.nid_mk (d b i n : Nat) (cs : List Entry) :
    (Entry.mk d b i n cs).nid = i := rfl

@[simp] theorem Entry.node_mk (d b i n : Nat) (cs : List Entry) :
    (Entry.mk d b i n cs).node = n := rfl

@[simp] theorem Entry.children_mk (d b i n : Nat) (cs : List Entry) :
    (Entry.mk d b i n cs).children = cs := rfl

@[simp] theorem allNodes_mk (d b i n : Nat) (cs : List Entry) :
    allNodes (.mk d b i n cs) = n :: allNodesL cs := by
  rw [allNodes]

@[simp] theorem allNodesL_nil : allNodesL [] = [] := by rw [allNodesL]

@[simp] theorem allNodesL_cons (c : Entry) (cs : List Entry) :
    allNodesL (c :: cs) = allNodes c ++ allNodesL cs := by rw [allNodesL]

theorem allNodes_eq (e : Entry) : allNodes e = e.node :: allNodesL e.children := by
  cases e; simp

theorem allNodesL_append (cs es : List Entry) :
    allNodesL (cs ++ es) = allNodesL cs ++ allNodesL es := by
  induction cs with
  | nil => simp
  | cons c cs ih => simp [ih]

theorem mem_allNodesL {x : Nat} {cs : List Entry} :
    x ∈ allNodesL cs ↔ ∃ c ∈ cs, x ∈ allNodes c := by
  induction cs with
  | nil => simp
  | cons c cs ih =>
    simp only [allNodesL_cons, List.mem_append, ih, List.mem_cons]
    constructor
    · rintro (h | ⟨c', hc', hx⟩)
      · exact ⟨c, Or.inl rfl, h⟩
      · exact ⟨c', Or.inr hc', hx⟩
    · rintro ⟨c', (rfl | hc'), hx⟩
      · exact Or.inl hx
      · exact Or.inr ⟨c', hc', hx⟩

theorem allNodesL_leaves {es : List Entry} (h : ∀ c ∈ es, c.children = []) :
    allNodesL es = es.map Entry.node := by
  induction es with
  | nil => simp
  | cons c cs ih =>
    have hc : c.children = [] := h c (by simp)
    rw [allNodesL_cons, allNodes_eq, hc, ih (fun c' h' => h c' (by simp [h']))]
    simp

/-! The stable sort by browse name: sortedness, permutation and stability. -/

theorem insertDesc_perm (a : Desc) (l : List Desc) : List.Perm (insertDesc a l) (a :: l) := by
  induction l with
  | nil => simp [insertDesc]
  | cons b l ih =>
    rw [insertDesc]
    split
    · exact List.Perm.refl _
    · exact ((ih.cons b).trans (List.Perm.swap a b l))

theorem sortDescs_perm (l : List Desc) : List.Perm (sortDescs l) l := by
  induction l with
  | nil => simp [sortDescs]
  | cons a l ih => exact (insertDesc_perm a (sortDescs l)).trans (ih.cons a)

theorem insertDesc_sorted {l : List Desc} (a : Desc)
    (h : l.Pairwise (fun x y => x.bname ≤ y.bname)) :
    (insertDesc a l).Pairwise (fun x y => x.bname ≤ y.bname) := by
  induction l with
  | nil => simp [insertDesc]
  | cons b l ih =>
    rw [insertDesc]
    rcases List.pairwise_cons.mp h with ⟨hb, hl⟩
    split
    · refine List.pairwise_cons.mpr ⟨?_, h⟩
      intro y hy
      rcases List.mem_cons.mp hy with rfl | hy
      · assumption
      · exact le_trans (by assumption) (hb y hy)
    · refine List.pairwise_cons.mpr ⟨?_, ih hl⟩
      intro y hy
      rcases List.mem_cons.mp ((insertDesc_perm a l).mem_iff.mp hy) with rfl | hy
      · omega
      · exact hb y hy

theorem sortDescs_sorted (l : List Desc) :
    (sortDescs l).Pairwise (fun x y => x.bname ≤ y.bname) := by
  induction l with
  | nil => simp [sortDescs]
  | cons a l ih => exact insertDesc_sorted a ih

theorem filter_insertDesc (a : Desc) (l : List Desc) (k : Nat) :
    (insertDesc a l).filter (fun d => d.bname == k) =
      (a :: l).filter (fun d => d.bname == k) := by
  induction l with
  | nil => simp [insertDesc]
  | cons b l ih =>
    rw [insertDesc]
    split
    · rfl
    · have hba : b.bname < a.bname := by omega
      by_cases hbk : b.bname = k
      · have hak : a.bname ≠ k := by omega
        simp [List.filter_cons, hbk, hak] at ih ⊢
        exact ih
      · simp [List.filter_cons, hbk] at ih ⊢
        exact ih

theorem filter_sortDescs (l : List Desc) (k : Nat) :
    (sortDescs l).filter (fun d => d.bname == k) = l.filter (fun d => d.bname == k) := by
  induction l with
  | nil => rfl
  | cons a l ih =>
    rw [sortDescs, filter_insertDesc]
    by_cases hak : a.bname = k <;> simp [List.filter_cons, hak, ih]

/-! Lemmas about `findAt` and `appendChildrenAt`. -/

theorem mem_allNodesL_of_mem {x : Nat} {c : Entry} {cs : List Entry}
    (hc : c ∈ cs) (hx : x ∈ allNodes c) : x ∈ allNodesL cs :=
  mem_allNodesL.mpr ⟨c, hc, hx⟩

theorem findAt_node_mem {rt e : Entry} {p : List Nat}
    (h : findAt rt p = some e) : e.node ∈ allNodes rt := by
  induction p generalizing rt with
  | nil =>
    rw [findAt] at h
    cases h
    rw [allNodes_eq]; simp
  | cons j rest ih =>
    rw [findAt] at h
    cases hc : rt.children[j]? with
    | none => rw [hc] at h; cases h
    | some c =>
      rw [hc] at h
      have hmem : c ∈ rt.children := List.getElem?_mem hc
      have := ih h
      rw [allNodes_eq]
      exact List.mem_cons_of_mem _ (mem_allNodesL_of_mem hmem this)

@[simp] theorem appendChildrenAt_nil (e : Entry) (es : List Entry) :
    appendChildrenAt e [] es =
      Entry.mk e.dname e.bname e.nid e.node (e.children ++ es) := by
  cases e; rw [appendChildrenAt]; rfl

theorem appendChildrenAt_cons (d b i n : Nat) (cs : List Entry) (j : Nat)
    (rest : List Nat) (es : List Entry) :
    appendChildrenAt (.mk d b i n cs) (j :: rest) es =
      .mk d b i n (appendChildrenAtL cs j rest es) := by
  rw [appendChildrenAt]

@[simp] theorem appendChildrenAt_node (e : Entry) (p : List Nat) (es : List Entry) :
    (appendChildrenAt e p es).node = e.node := by
  cases e <;> cases p <;> simp [appendChildrenAt]

@[simp] theorem appendChildrenAt_bname (e : Entry) (p : List Nat) (es : List Entry) :
    (appendChildrenAt e p es).bname = e.bname := by
  cases e <;> cases p <;> simp [appendChildrenAt]

theorem appendChildrenAtL_getElem_self {cs : List Entry} {j : Nat} {c : Entry}
    (hc : cs[j]? = some c) (rest : List Nat) (es : List Entry) :
    (appendChildrenAtL cs j rest es)[j]? = some (appendChildrenAt c rest es) := by
  induction cs generalizing j with
  | nil => simp at hc
  | cons c0 cs ih =>
    cases j with
    | zero => simp at hc; subst hc; rw [appendChildrenAtL]; simp
    | succ j =>
      simp only [List.getElem?_cons_succ] at hc
      rw [appendChildrenAtL]
      simpa using ih hc

theorem mem_appendChildrenAtL {c' : Entry} {cs : List Entry} {j : Nat}
    {rest : List Nat} {es : List Entry}
    (h : c' ∈ appendChildrenAtL cs j rest es) :
    c' ∈ cs ∨ ∃ c, cs[j]? = some c ∧ c' = appendChildrenAt c rest es := by
  induction cs generalizing j with
  | nil => rw [appendChildrenAtL] at h; simp at h
  | cons c0 cs ih =>
    cases j with
    | zero =>
      rw [appendChildrenAtL] at h
      rcases List.mem_cons.mp h with rfl | h
      · exact Or.inr ⟨c0, by simp⟩
      · exact Or.inl (List.mem_cons_of_mem _ h)
    | succ j =>
      rw [appendChildrenAtL] at h
      rcases List.mem_cons.mp h with rfl | h
      · exact Or.inl (by simp)
      · rcases ih h with h | ⟨c, hc, rfl⟩
        · exact Or.inl (List.mem_cons_of_mem _ h)
        · exact Or.inr ⟨c, by simpa using hc, rfl⟩

theorem findAt_appendChildrenAt_self {rt e : Entry} {p : List Nat}
    (h : findAt rt p = some e) (es : List Entry) :
    findAt (appendChildrenAt rt p es) p =
      some (Entry.mk e.dname e.bname e.nid e.node (e.children ++ es)) := by
  induction p generalizing rt with
  | nil =>
    rw [findAt] at h
    cases h
    rw [appendChildrenAt_nil, findAt]
  | cons j rest ih =>
    rw [findAt] at h
    cases hc : rt.children[j]? with
    | none => rw [hc] at h; cases h
    | some c =>
      rw [hc] at h
      cases rt with
      | mk d b i n cs =>
        rw [appendChildrenAt_cons, findAt]
        simp only [Entry.children_mk] at hc ⊢
        rw [appendChildrenAtL_getElem_self hc]
        exact ih h

theorem allNodesL_appendChildrenAtL {cs : List Entry} {j : Nat} {c : Entry}
    {rest : List Nat} {es : List Entry}
    (hc : cs[j]? = some c)
    (hrec : List.Perm (allNodes (appendChildrenAt c rest es))
      (allNodes c ++ allNodesL es)) :
    List.Perm (allNodesL (appendChildrenAtL cs j rest es))
      (allNodesL cs ++ allNodesL es) := by
  induction cs generalizing j with
  | nil => simp at hc
  | cons c0 cs ih =>
    cases j with
    | zero =>
      simp only [List.getElem?_cons_zero, Option.some.injEq] at hc
      subst hc
      rw [appendChildrenAtL]
      simp only [allNodesL_cons]
      refine (hrec.append_right (allNodesL cs)).trans ?_
      rw [List.append_assoc, List.append_assoc]
      exact (List.perm_append_comm).append_left _
    | succ j =>
      simp only [List.getElem?_cons_succ] at hc
      rw [appendChildrenAtL]
      simp only [allNodesL_cons, List.append_assoc]
      exact (ih hc).append_left _

theorem allNodes_appendChildrenAt {rt e : Entry} {p : List Nat}
    (h : findAt rt p = some e) (es : List Entry) :
    List.Perm (allNodes (appendChildrenAt rt p es)) (allNodes rt ++ allNodesL es) := by
  induction p generalizing rt with
  | nil =>
    cases rt with
    | mk d b i n cs =>
      rw [appendChildrenAt, allNodes_mk, allNodes_mk, allNodesL_append, List.cons_append]
  | cons j rest ih =>
    rw [findAt] at h
    cases hc : rt.children[j]? with
    | none => rw [hc] at h; cases h
    | some c =>
      rw [hc] at h
      cases rt with
      | mk d b i n cs =>
        rw [appendChildrenAt_cons]
        simp only [Entry.children_mk] at hc
        simp only [allNodes_mk, List.cons_append]
        exact (allNodesL_appendChildrenAtL hc (ih h)).cons n

/-! Lemmas about the structural invariant `Good`. -/

theorem Good_of_leaf {src : NodeSource} {f : List Nat} {c : Entry}
    (h : c.children = []) : Good src f c := by
  cases c with
  | mk d b i n cs =>
    simp only [Entry.children_mk] at h
    subst h
    exact .intro d b i n [] (fun _ => rfl) (by simp) (by simp)

theorem Good.mono {src : NodeSource} {f f' : List Nat} {e : Entry}
    (hsub : f ⊆ f') (h : Good src f e) : Good src f' e := by
  induction h with
  | intro d b i n cs h1 h2 h3 ih =>
    exact .intro d b i n cs (fun hn => h1 (fun hmem => hn (hsub hmem))) h2 ih

theorem Good_findAt {src : NodeSource} {f : List Nat} {rt e : Entry} {p : List Nat}
    (h : Good src f rt) (hf : findAt rt p = some e) : Good src f e := by
  induction p generalizing rt with
  | nil =>
    rw [findAt] at hf
    cases hf
    exact h
  | cons j rest ih =>
    rw [findAt] at hf
    cases hc : rt.children[j]? with
    | none => rw [hc] at hf; cases hf
    | some c =>
      rw [hc] at hf
      cases h with
      | intro d b i n cs h1 h2 h3 =>
        simp only [Entry.children_mk] at hc
        exact ih (h3 c (List.getElem?_mem hc)) hf

theorem Good.childSpec {src : NodeSource} {f : List Nat} {rt : Entry} {x : Nat}
    (h : Good src f rt) (hx : x ∈ allNodes rt) :
    x = rt.node ∨ ∃ pn b, pn ∈ f ∧ pn ∈ allNodes rt ∧ x = src.child pn b := by
  induction h with
  | intro d b i n cs h1 h2 h3 ih =>
    rw [allNodes_mk] at hx
    rcases List.mem_cons.mp hx with rfl | hx
    · exact Or.inl rfl
    · rcases mem_allNodesL.mp hx with ⟨c, hc, hxc⟩
      right
      rcases ih c hc hxc with hxc' | ⟨pn, bn, hpnf, hpn, hxch⟩
      · have hn : n ∈ f := by
          by_contra hn
          rw [h1 hn] at hc
          simp at hc
        exact ⟨n, c.bname, hn, by simp, by rw [hxc']; exact h2 c hc⟩
      · exact ⟨pn, bn, hpnf, by
          rw [allNodes_mk]
          exact List.mem_cons_of_mem _ (mem_allNodesL_of_mem hc hpn), hxch⟩

theorem Good.append {src : NodeSource} {f : List Nat} {rt e : Entry} {p : List Nat}
    {es : List Entry}
    (h : Good src f rt) (hf : findAt rt p = some e) (he : e.node ∉ f)
    (hes1 : ∀ c ∈ es, c.node = src.child e.node c.bname)
    (hes2 : ∀ c ∈ es, c.children = []) :
    Good src (f ++ [e.node]) (appendChildrenAt rt p es) := by
  induction p generalizing rt with
  | nil =>
    rw [findAt] at hf
    cases hf
    cases h with
    | intro d b i n cs h1 h2 h3 =>
      simp only [Entry.node_mk] at he hes1
      rw [h1 he, appendChildrenAt]
      refine .intro d b i n ([] ++ es) (fun hn => absurd (by simp) hn) ?_ ?_
      · intro c hc
        simp only [List.nil_append] at hc
        exact hes1 c hc
      · intro c hc
        simp only [List.nil_append] at hc
        exact Good_of_leaf (hes2 c hc)
  | cons j rest ih =>
    rw [findAt] at hf
    cases hc : rt.children[j]? with
    | none => rw [hc] at hf; cases hf
    | some c =>
      rw [hc] at hf
      cases h with
      | intro d b i n cs h1 h2 h3 =>
        simp only [Entry.children_mk] at hc
        rw [appendChildrenAt]
        refine .intro d b i n _ ?_ ?_ ?_
        · intro hn
          exfalso
          have : cs = [] := h1 (fun hmem => hn (List.mem_append_left _ hmem))
          rw [this] at hc
          simp at hc
        · intro c' hc'
          rcases mem_appendChildrenAtL hc' with hmem | ⟨c0, hc0, rfl⟩
          · exact h2 c' hmem
          · rw [hc0] at hc
            cases hc
            rw [appendChildrenAt_node, appendChildrenAt_bname]
            exact h2 c (List.getElem?_mem hc0)
        · intro c' hc'
          rcases mem_appendChildrenAtL hc' with hmem | ⟨c0, hc0, rfl⟩
          · exact (h3 c' hmem).mono (List.subset_append_left _ _)
          · rw [hc0] at hc
            cases hc
            exact ih (h3 c (List.getElem?_mem hc0)) hf

/-! Evaluation lemmas: the mutually exclusive behaviours of
`canFetchMore`, `hasChildren`, `fetchMore` and `children_of` on a state. -/

theorem canFetchMore_unresolved {s : CacheState} {idx : Option (List Nat)}
    (h : resolve s idx = none) : canFetchMore s idx = (false, s) := by
  cases idx with
  | none => rfl
  | some p =>
    rw [resolve] at h
    cases hrt : s.root with
    | none => simp [canFetchMore, hrt]
    | some rt =>
      rw [hrt] at h
      simp only [Option.some_bind] at h
      simp [canFetchMore, hrt, h]

theorem canFetchMore_fetched {s : CacheState} {p : List Nat} {rt e : Entry}
    (hrt : s.root = some rt) (hf : findAt rt p = some e)
    (he : e.node ∈ s.fetched) : canFetchMore s (some p) = (false, s) := by
  simp [canFetchMore, hrt, hf, he]

theorem canFetchMore_unfetched {s : CacheState} {p : List Nat} {rt e : Entry}
    (hrt : s.root = some rt) (hf : findAt rt p = some e)
    (he : e.node ∉ s.fetched) :
    canFetchMore s (some p) = (true, { s with fetched := s.fetched ++ [e.node] }) := by
  simp [canFetchMore, hrt, hf, he]

theorem hasChildren_invalid (src : NodeSource) (s : CacheState) :
    hasChildren src s none = (some true, s) := rfl

theorem hasChildren_resolved {src : NodeSource} {s : CacheState} {p : List Nat}
    {rt e : Entry} (hrt : s.root = some rt) (hf : findAt rt p = some e) :
    hasChildren src s (some p) =
      ((src.descs e.node).map (fun l => !l.isEmpty),
        { s with calls := s.calls + 1 }) := by
  cases hds : src.descs e.node with
  | none => simp [hasChildren, hrt, hf, hds]
  | some l => simp [hasChildren, hrt, hf, hds]

theorem hasChildren_unresolved {src : NodeSource} {s : CacheState} {p : List Nat}
    (h : resolve s (some p) = none) : hasChildren src s (some p) = (none, s) := by
  rw [resolve] at h
  cases hrt : s.root with
  | none => simp [hasChildren, hrt]
  | some rt =>
    rw [hrt] at h
    simp only [Option.some_bind] at h
    simp [hasChildren, hrt, h]

theorem fetchMore_fail {src : NodeSource} {s : CacheState} {p : List Nat}
    {rt e : Entry} (hrt : s.root = some rt) (hf : findAt rt p = some e)
    (hds : src.descs e.node = none) :
    fetchMore src s (some p) = (none, { s with calls := s.calls + 1 }) := by
  simp [fetchMore, hrt, hf, hds]

theorem fetchMore_success {src : NodeSource} {s : CacheState} {p : List Nat}
    {rt e : Entry} {ds : List Desc} (hrt : s.root = some rt)
    (hf : findAt rt p = some e) (hds : src.descs e.node = some ds) :
    fetchMore src s (some p) =
      (some (), { s with
        calls := s.calls + 1
        root := some (appendChildrenAt rt p
          ((sortDescs ds).map (childEntry src e.node))) }) := by
  simp [fetchMore, hrt, hf, hds]

theorem children_of_unresolved {src : NodeSource} {s : CacheState}
    {idx : Option (List Nat)} (h : resolve s idx = none) :
    children_of src s idx = (none, s) := by
  rw [children_of, canFetchMore_unresolved h]
  simp [h]

theorem children_of_cached {src : NodeSource} {s : CacheState} {p : List Nat}
    {rt e : Entry} (hrt : s.root = some rt) (hf : findAt rt p = some e)
    (he : e.node ∈ s.fetched) :
    children_of src s (some p) = (some e.children, s) := by
  rw [children_of, canFetchMore_fetched hrt hf he]
  simp [resolve, hrt, hf]

theorem children_of_fail {src : NodeSource} {s : CacheState} {p : List Nat}
    {rt e : Entry} (hrt : s.root = some rt) (hf : findAt rt p = some e)
    (he : e.node ∉ s.fetched) (hds : src.descs e.node = none) :
    children_of src s (some p) =
      (none, { s with fetched := s.fetched ++ [e.node], calls := s.calls + 1 }) := by
  rw [children_of, canFetchMore_unfetched hrt hf he]
  have hfetch := fetchMore_fail
    (show ({ s with fetched := s.fetched ++ [e.node] } : CacheState).root = some rt from hrt)
    hf hds
  simp only [hfetch]
  simp

theorem children_of_success {src : NodeSource} {s : CacheState} {p : List Nat}
    {rt e : Entry} {ds : List Desc} (hrt : s.root = some rt)
    (hf : findAt rt p = some e) (he : e.node ∉ s.fetched)
    (hds : src.descs e.node = some ds) :
    children_of src s (some p) =
      (some (e.children ++ (sortDescs ds).map (childEntry src e.node)),
        { s with
          fetched := s.fetched ++ [e.node]
          calls := s.calls + 1
          root := some (appendChildrenAt rt p
            ((sortDescs ds).map (childEntry src e.node))) }) := by
  rw [children_of, canFetchMore_unfetched hrt hf he]
  have hfetch := fetchMore_success
    (show ({ s with fetched := s.fetched ++ [e.node] } : CacheState).root = some rt from hrt)
    hf hds
  simp only [hfetch]
  simp [resolve, findAt_appendChildrenAt_self hf]

/-! The identity-uniqueness invariant over reachable states. -/

theorem InvS_of_same (src : NodeSource) (r0 : Nat) {s s' : CacheState}
    (h1 : s'.root = s.root) (h2 : s'.fetched = s.fetched)
    (h : InvS src r0 s) : InvS src r0 s' := by
  obtain ⟨rt, hrt, hr0, hgood, hnd, hsub⟩ := h
  exact ⟨rt, by rw [h1, hrt], hr0, by rw [h2]; exact hgood, hnd, by rw [h2]; exact hsub⟩

theorem InvS_hasChildren {src : NodeSource} {r0 : Nat} {s : CacheState}
    (h : InvS src r0 s) (idx : Option (List Nat)) :
    InvS src r0 (hasChildren src s idx).2 := by
  cases idx with
  | none => rw [hasChildren_invalid]; exact h
  | some p =>
    cases hres : resolve s (some p) with
    | none => rw [hasChildren_unresolved hres]; exact h
    | some e =>
      obtain ⟨rt, hrt, -⟩ := id h
      rw [resolve, hrt, Option.some_bind] at hres
      rw [hasChildren_resolved hrt hres]
      exact InvS_of_same src r0 rfl rfl h

theorem InvS_children_of {src : NodeSource} {r0 : Nat} {s : CacheState}
    (hok : SourceOK src r0) (h : InvS src r0 s) (idx : Option (List Nat)) :
    InvS src r0 (children_of src s idx).2 := by
  obtain ⟨rt, hrt, hr0, hgood, hnd, hsub⟩ := h
  cases idx with
  | none =>
    rw [children_of_unresolved (by rw [resolve])]
    exact ⟨rt, hrt, hr0, hgood, hnd, hsub⟩
  | some p =>
    cases hf : findAt rt p with
    | none =>
      rw [children_of_unresolved (by rw [resolve, hrt, Option.some_bind]; exact hf)]
      exact ⟨rt, hrt, hr0, hgood, hnd, hsub⟩
    | some e =>
      by_cases he : e.node ∈ s.fetched
      · rw [children_of_cached hrt hf he]
        exact ⟨rt, hrt, hr0, hgood, hnd, hsub⟩
      · have hemem : e.node ∈ allNodes rt := findAt_node_mem hf
        cases hds : src.descs e.node with
        | none =>
          rw [children_of_fail hrt hf he hds]
          refine ⟨rt, hrt, hr0, hgood.mono (List.subset_append_left _ _), hnd, ?_⟩
          intro n hn
          rcases List.mem_append.mp hn with hn | hn
          · exact hsub n hn
          · rw [List.mem_singleton.mp hn]; exact hemem
        | some ds =>
          set es := (sortDescs ds).map (childEntry src e.node) with hes
          have hleaves : ∀ c ∈ es, c.children = [] := by
            intro c hc
            rcases List.mem_map.mp hc with ⟨d, -, rfl⟩
            rfl
          have hlinks : ∀ c ∈ es, c.node = src.child e.node c.bname := by
            intro c hc
            rcases List.mem_map.mp hc with ⟨d, -, rfl⟩
            rfl
          have hnodesL : allNodesL es = (sortDescs ds).map (fun d => src.child e.node d.bname) := by
            rw [allNodesL_leaves hleaves, hes, List.map_map]
            rfl
          have hbn : ((sortDescs ds).map Desc.bname).Nodup :=
            (((sortDescs_perm ds).map Desc.bname).nodup_iff).mpr (hok.2.2 _ _ hds)
          have hinj : Function.Injective (src.child e.node) := by
            intro b b' hbb
            exact (hok.1 _ _ _ _ hbb).2
          have hnodup_new : (allNodesL es).Nodup := by
            rw [hnodesL, show (fun d => src.child e.node d.bname) =
              (src.child e.node) ∘ Desc.bname from rfl, ← List.map_map]
            exact hbn.map hinj
          have hfresh : ∀ x ∈ allNodesL es, x ∉ allNodes rt := by
            intro x hx hmem
            rw [hnodesL] at hx
            rcases List.mem_map.mp hx with ⟨d, -, rfl⟩
            rcases hgood.childSpec hmem with hx' | ⟨pn, bn, hpnf, -, hx'⟩
            · rw [hr0] at hx'
              exact hok.2.1 e.node d.bname hx'
            · exact he ((hok.1 _ _ _ _ hx').1 ▸ hsub pn hpnf |> fun _ => ((hok.1 _ _ _ _ hx').1 ▸ hpnf))
          rw [children_of_success hrt hf he hds]
          have hperm := allNodes_appendChildrenAt hf es
          refine ⟨appendChildrenAt rt p es, rfl, by rw [appendChildrenAt_node]; exact hr0,
            hgood.append hf he hlinks hleaves, ?_, ?_⟩
          · refine hperm.nodup_iff.mpr ?_
            exact List.Nodup.append hnd hnodup_new (fun a ha hb => hfresh a hb ha)
          · intro n hn
            rw [hperm.mem_iff, List.mem_append]
            rcases List.mem_append.mp hn with hn | hn
            · exact Or.inl (hsub n hn)
            · rw [List.mem_singleton.mp hn]; exact Or.inl hemem

theorem InvS_applyOp {src : NodeSource} {r0 : Nat} {s : CacheState}
    (hok : SourceOK src r0) (h : InvS src r0 s) (op : QOp) :
    InvS src r0 (applyOp src s op) := by
  cases op with
  | hasC idx => exact InvS_hasChildren h idx
  | childrenOf idx => exact InvS_children_of hok h idx

theorem InvS_run {src : NodeSource} {r0 : Nat} (hok : SourceOK src r0)
    (ops : List QOp) : ∀ s : CacheState, InvS src r0 s → InvS src r0 (run src ops s) := by
  induction ops with
  | nil => intro s h; exact h
  | cons op ops ih =>
    intro s h
    rw [run]
    exact ih _ (InvS_applyOp hok h op)

theorem InvS_tw_set_root_node (src : NodeSource) (s : CacheState) (r0 : Nat) :
    InvS src r0 (tw_set_root_node src s r0) := by
  refine ⟨Entry.mk (src.dnameOf r0) (src.bnameOf r0) (src.nidOf r0) r0 [], rfl, rfl,
    Good_of_leaf rfl, by simp, by simp [tw_set_root_node, set_root_node, clearModel]⟩

/-! Helper lemmas for `get_current_path`. -/

theorem pathNames_length {src : NodeSource} {rt : Entry} {p : List Nat} {l : List Nat}
    (h : pathNames src rt p = some l) : l.length = p.length + 1 := by
  induction p generalizing rt l with
  | nil =>
    rw [pathNames] at h
    cases h
    rfl
  | cons j rest ih =>
    rw [pathNames] at h
    cases hc : rt.children[j]? with
    | none =>
      rw [hc] at h
      exact Option.noConfusion (show (none : Option (List Nat)) = some l from h)
    | some c =>
      rw [hc] at h
      have h1 : Option.map (fun l0 => src.bnameOf rt.node :: l0) (pathNames src c rest) =
          some l := h
      cases hrec : pathNames src c rest with
      | none => rw [hrec] at h1; cases h1
      | some l2 =>
        rw [hrec] at h1
        cases h1
        simp [ih hrec]

theorem pathNames_head {src : NodeSource} {rt : Entry} {p : List Nat} {l : List Nat}
    (h : pathNames src rt p = some l) : l.head? = some (src.bnameOf rt.node) := by
  cases p with
  | nil =>
    rw [pathNames] at h
    cases h
    rfl
  | cons j rest =>
    rw [pathNames] at h
    cases hc : rt.children[j]? with
    | none =>
      rw [hc] at h
      exact Option.noConfusion (show (none : Option (List Nat)) = some l from h)
    | some c =>
      rw [hc] at h
      have h1 : Option.map (fun l0 => src.bnameOf rt.node :: l0) (pathNames src c rest) =
          some l := h
      cases hrec : pathNames src c rest with
      | none => rw [hrec] at h1; cases h1
      | some l2 =>
        rw [hrec] at h1
        cases h1
        rfl

/-! The claims. -/

/-- C1, counterexample.  The claim states that after a failing first fetch
for an entry the cache is as before the call — in particular the fetched
flag remains false — and a later call triggers a fresh fetch attempt.  On
the code, the expansion protocol marks the node fetched in `canFetchMore`
before `fetchMore` performs the failing source call, so after the failure
the root node is recorded in `_fetched` and the repeated expansion makes no
further source call (the counter stays at one), reporting the cached empty
children instead of retrying. -/
theorem C1_counterexample_failed_fetch_marks :
    (children_of failSrc (tw_set_root_node failSrc initState 0) (some [])).1 = none ∧
    0 ∈ (children_of failSrc (tw_set_root_node failSrc initState 0) (some [])).2.fetched ∧
    (children_of failSrc
      (children_of failSrc (tw_set_root_node failSrc initState 0) (some [])).2
      (some [])).2.calls =
      (children_of failSrc (tw_set_root_node failSrc initState 0) (some [])).2.calls ∧
    (children_of failSrc
      (children_of failSrc (tw_set_root_node failSrc initState 0) (some [])).2
      (some [])).1 = some [] :=
  ⟨rfl, by decide, by decide, rfl⟩

/-- C1, amended.  If `get_children_descriptions` fails during the first
fetch of the entry at `p` (triggered through `canFetchMore`/`fetchMore`),
then the item tree — in particular the entry's cached children — is exactly
as before the call, but the entry's node has been appended to `_fetched` by
the gating check, one source call was counted, and a repeated expansion of
the same entry performs no fresh fetch attempt: it returns the stale cached
children without touching the state. -/
theorem C1_amended_failed_fetch {src : NodeSource} {s : CacheState} {p : List Nat}
    {rt e : Entry} (hrt : s.root = some rt) (hf : findAt rt p = some e)
    (he : e.node ∉ s.fetched) (hds : src.descs e.node = none) :
    (children_of src s (some p)).1 = none ∧
    (children_of src s (some p)).2.root = s.root ∧
    (children_of src s (some p)).2.fetched = s.fetched ++ [e.node] ∧
    (children_of src s (some p)).2.calls = s.calls + 1 ∧
    children_of src (children_of src s (some p)).2 (some p) =
      (some e.children, (children_of src s (some p)).2) := by
  have h1 := children_of_fail hrt hf he hds
  rw [h1]
  refine ⟨rfl, rfl, rfl, rfl, ?_⟩
  show children_of src { s with fetched := s.fetched ++ [e.node], calls := s.calls + 1 }
    (some p) = _
  exact children_of_cached hrt hf (by simp)

/-- C1 witness. -/
theorem C1_amended_failed_fetch_witness :
    (children_of failSrc (tw_set_root_node failSrc initState 0) (some [])).1 = none ∧
    (children_of failSrc (tw_set_root_node failSrc initState 0) (some [])).2.fetched =
      [] ++ [0] := by
  have h := C1_amended_failed_fetch
    (show (tw_set_root_node failSrc initState 0).root = some (Entry.mk 0 0 0 0 []) from rfl)
    (show findAt (Entry.mk 0 0 0 0 []) [] = some (Entry.mk 0 0 0 0 []) from rfl)
    (by decide)
    (show failSrc.descs (Entry.mk 0 0 0 0 []).node = none from rfl)
  exact ⟨h.1, h.2.2.1⟩

/-- C2, counterexample.  The claim states that after a fetch that succeeded
with an empty child list, `has_children` returns false and issues no further
source calls until invalidation.  On the code, `hasChildren` performs a
fresh `get_children_descriptions` round-trip on every invocation: after the
empty fetch (one source call), a single `hasChildren` raises the call
counter to two. -/
theorem C2_counterexample_hasChildren_requeries :
    (children_of emptySrc (tw_set_root_node emptySrc initState 0) (some [])).2.calls = 1 ∧
    (hasChildren emptySrc
      (children_of emptySrc (tw_set_root_node emptySrc initState 0) (some [])).2
      (some [])).2.calls = 2 ∧
    (hasChildren emptySrc
      (children_of emptySrc (tw_set_root_node emptySrc initState 0) (some [])).2
      (some [])).1 = some false :=
  ⟨by decide, by decide, by decide⟩

/-- C2, amended.  For every resolvable entry — in particular one whose fetch
succeeded with an empty child list — each call to `hasChildren` issues one
fresh `get_children_descriptions` call and answers with the non-emptiness of
that fresh reply; the cached tree and `_fetched` are neither consulted nor
modified.  It returns false exactly when the source currently reports no
children. -/
theorem C2_amended_hasChildren_always_queries {src : NodeSource} {s : CacheState}
    {p : List Nat} {rt e : Entry} {l : List Desc}
    (hrt : s.root = some rt) (hf : findAt rt p = some e)
    (hds : src.descs e.node = some l) :
    (hasChildren src s (some p)).1 = some (!l.isEmpty) ∧
    (hasChildren src s (some p)).2.calls = s.calls + 1 ∧
    (hasChildren src s (some p)).2.root = s.root ∧
    (hasChildren src s (some p)).2.fetched = s.fetched := by
  rw [hasChildren_resolved hrt hf, hds]
  exact ⟨rfl, rfl, rfl, rfl⟩

/-- C2 witness. -/
theorem C2_amended_hasChildren_always_queries_witness :
    (hasChildren emptySrc (tw_set_root_node emptySrc initState 0) (some [])).1 =
      some (!(([] : List Desc)).isEmpty) ∧
    (hasChildren emptySrc (tw_set_root_node emptySrc initState 0) (some [])).2.calls =
      (tw_set_root_node emptySrc initState 0).calls + 1 := by
  have h := C2_amended_hasChildren_always_queries
    (show (tw_set_root_node emptySrc initState 0).root = some (Entry.mk 0 0 0 0 []) from rfl)
    (show findAt (Entry.mk 0 0 0 0 []) [] = some (Entry.mk 0 0 0 0 []) from rfl)
    (show emptySrc.descs (Entry.mk 0 0 0 0 []).node = some [] from rfl)
  exact ⟨h.1, h.2.1⟩

/-- C3, confirmed.  Two consecutive `children_of` expansions of the same
index without an intervening `reset_cache` issue at most one
`get_children_descriptions` call in total, and whenever the first expansion
returns a child sequence, the second returns the identical sequence and
leaves the state untouched. -/
theorem C3_children_of_idempotent (src : NodeSource) (s : CacheState)
    (idx : Option (List Nat)) :
    (children_of src (children_of src s idx).2 idx).2.calls ≤ s.calls + 1 ∧
    ∀ l, (children_of src s idx).1 = some l →
      children_of src (children_of src s idx).2 idx =
        (some l, (children_of src s idx).2) := by
  cases idx with
  | none =>
    rw [children_of_unresolved (by rw [resolve])]
    refine ⟨?_, fun l hl => Option.noConfusion (show (none : Option (List Entry)) = some l from hl)⟩
    show (children_of src s none).2.calls ≤ s.calls + 1
    rw [children_of_unresolved (by rw [resolve])]
    exact Nat.le_succ _
  | some p =>
    cases hrt : s.root with
    | none =>
      have hres : resolve s (some p) = none := by rw [resolve, hrt]; rfl
      rw [children_of_unresolved hres]
      refine ⟨?_, fun l hl => Option.noConfusion (show (none : Option (List Entry)) = some l from hl)⟩
      show (children_of src s (some p)).2.calls ≤ s.calls + 1
      rw [children_of_unresolved hres]
      exact Nat.le_succ _
    | some rt =>
      cases hf : findAt rt p with
      | none =>
        have hres : resolve s (some p) = none := by
          rw [resolve, hrt, Option.some_bind]; exact hf
        rw [children_of_unresolved hres]
        refine ⟨?_, fun l hl => Option.noConfusion (show (none : Option (List Entry)) = some l from hl)⟩
        show (children_of src s (some p)).2.calls ≤ s.calls + 1
        rw [children_of_unresolved hres]
        exact Nat.le_succ _
      | some e =>
        by_cases he : e.node ∈ s.fetched
        · have h1 := @children_of_cached src s p rt e hrt hf he
          rw [h1]
          refine ⟨?_, fun l hl => ?_⟩
          · show (children_of src s (some p)).2.calls ≤ s.calls + 1
            rw [h1]
            exact Nat.le_succ _
          · have hl2 : e.children = l := Option.some.inj hl
            show children_of src s (some p) = (some l, s)
            rw [h1, ← hl2]
        · cases hds : src.descs e.node with
          | none =>
            have h1 := children_of_fail hrt hf he hds
            have h2 : children_of src
                { s with fetched := s.fetched ++ [e.node], calls := s.calls + 1 }
                (some p) =
                (some e.children,
                  { s with fetched := s.fetched ++ [e.node], calls := s.calls + 1 }) :=
              children_of_cached hrt hf (by simp)
            rw [h1]
            refine ⟨?_, fun l hl => Option.noConfusion
              (show (none : Option (List Entry)) = some l from hl)⟩
            show (children_of src
              { s with fetched := s.fetched ++ [e.node], calls := s.calls + 1 }
              (some p)).2.calls ≤ s.calls + 1
            rw [h2]
          | some ds =>
            have h1 := children_of_success hrt hf he hds
            have hf2 := findAt_appendChildrenAt_self hf
              ((sortDescs ds).map (childEntry src e.node))
            have h2 : children_of src
                { s with fetched := s.fetched ++ [e.node], calls := s.calls + 1, root := some (appendChildrenAt rt p ((sortDescs ds).map (childEntry src e.node))) }
                (some p) =
                (some (e.children ++ (sortDescs ds).map (childEntry src e.node)),
                  { s with fetched := s.fetched ++ [e.node], calls := s.calls + 1, root := some (appendChildrenAt rt p ((sortDescs ds).map (childEntry src e.node))) }) :=
              children_of_cached rfl hf2 (by simp)
            rw [h1]
            refine ⟨?_, fun l hl => ?_⟩
            · show (children_of src
                { s with fetched := s.fetched ++ [e.node], calls := s.calls + 1, root := some (appendChildrenAt rt p ((sortDescs ds).map (childEntry src e.node))) }
                (some p)).2.calls ≤ s.calls + 1
              rw [h2]
            · have hl2 : e.children ++ (sortDescs ds).map (childEntry src e.node) = l :=
                Option.some.inj hl
              show children_of src
                { s with fetched := s.fetched ++ [e.node], calls := s.calls + 1, root := some (appendChildrenAt rt p ((sortDescs ds).map (childEntry src e.node))) }
                (some p) = _
              rw [h2, ← hl2]

/-- C3 witness. -/
theorem C3_children_of_idempotent_witness :
    (children_of emptySrc
      (children_of emptySrc (tw_set_root_node emptySrc initState 0) (some [])).2
      (some [])).2.calls ≤ (tw_set_root_node emptySrc initState 0).calls + 1 ∧
    children_of emptySrc
      (children_of emptySrc (tw_set_root_node emptySrc initState 0) (some [])).2
      (some []) =
      (some [],
        (children_of emptySrc (tw_set_root_node emptySrc initState 0) (some [])).2) :=
  ⟨(C3_children_of_idempotent emptySrc (tw_set_root_node emptySrc initState 0) (some [])).1,
    (C3_children_of_idempotent emptySrc (tw_set_root_node emptySrc initState 0)
      (some [])).2 [] rfl⟩

/-- C4, counterexample.  The claim states that `path_to(root)` is the empty
sequence and that the operation performs no source calls.  On the code,
`get_current_path` at the root item returns the root's browse name — queried
freshly from the source by `node.get_browse_name()` — so the result is a
one-element sequence obtained with one source round-trip. -/
theorem C4_counterexample_path_includes_root :
    get_current_path pathSrc (tw_set_root_node pathSrc initState 0) (some []) = ([100], 1) ∧
    (get_current_path pathSrc (tw_set_root_node pathSrc initState 0) (some [])).1 ≠ [] ∧
    (get_current_path pathSrc (tw_set_root_node pathSrc initState 0) (some [])).2 ≠ 0 :=
  ⟨by decide, by decide, by decide⟩

/-- C4, amended.  For an index that resolves in the cached tree,
`get_current_path` returns the browse names of the whole chain of items from
the displayed root item down to the current item — the root's name included,
each name obtained by a fresh `node.get_browse_name()` source query, one per
chain element (depth + 1 in total, never zero).  Only the invalid index
yields the empty sequence with no source call. -/
theorem C4_amended_get_current_path {src : NodeSource} {s : CacheState}
    {p : List Nat} {rt : Entry} {l : List Nat}
    (hrt : s.root = some rt) (hpn : pathNames src rt p = some l) :
    get_current_path src s (some p) = (l, l.length) ∧
    l.length = p.length + 1 ∧
    l.head? = some (src.bnameOf rt.node) ∧
    get_current_path src s none = ([], 0) := by
  refine ⟨?_, pathNames_length hpn, pathNames_head hpn, rfl⟩
  simp [get_current_path, hrt, hpn]

/-- C4 witness. -/
theorem C4_amended_get_current_path_witness :
    get_current_path pathSrc (tw_set_root_node pathSrc initState 0) (some []) =
      ([100], [100].length) ∧
    ([100] : List Nat).length = ([] : List Nat).length + 1 := by
  have h := C4_amended_get_current_path
    (show (tw_set_root_node pathSrc initState 0).root = some (Entry.mk 0 100 0 0 []) from rfl)
    (show pathNames pathSrc (Entry.mk 0 100 0 0 []) [] = some [100] from rfl)
  exact ⟨h.1, h.2.1⟩

/-- C5, counterexample.  The claim states that after every successful fetch
the entry's cached children are stored in ascending browse-name order.  On
the code, `fetchMore` appends to whatever child rows are already present;
after a fetch, a `reset_cache` and a re-fetch, the root's cached children
carry browse names `[1, 2, 1, 2]`, which is not ascending. -/
theorem C5_counterexample_refetch_unsorted :
    ((children_of twoSrc
        (reset_cache (children_of twoSrc (tw_set_root_node twoSrc initState 0) (some [])).2 0)
        (some [])).2.root.map (fun rt => rt.children.map Entry.bname)) = some [1, 2, 1, 2] ∧
    ¬ ([1, 2, 1, 2] : List Nat).Pairwise (· ≤ ·) :=
  ⟨by decide, by decide⟩

/-- C5, amended.  The block of children appended by one successful fetch is
the source's description list stably sorted by browse name: it is in
ascending browse-name order, it keeps every description (duplicated browse
names included — the sorted list is a permutation of the arrival list), and
descriptions with equal browse names keep their arrival order (the filter at
any fixed browse name is unchanged — no secondary key).  The entry's cached
children after the fetch are the previously cached rows followed by that
block, so on a first fetch (empty cache) they are exactly the sorted
descriptions. -/
theorem C5_amended_fetch_appends_sorted_block {src : NodeSource} {s : CacheState}
    {p : List Nat} {rt e : Entry} {ds : List Desc}
    (hrt : s.root = some rt) (hf : findAt rt p = some e)
    (he : e.node ∉ s.fetched) (hds : src.descs e.node = some ds) :
    (children_of src s (some p)).1 =
      some (e.children ++ (sortDescs ds).map (childEntry src e.node)) ∧
    (((sortDescs ds).map (childEntry src e.node)).map Entry.bname).Pairwise (· ≤ ·) ∧
    List.Perm (sortDescs ds) ds ∧
    (∀ k, (sortDescs ds).filter (fun d => d.bname == k) =
      ds.filter (fun d => d.bname == k)) ∧
    (e.children = [] →
      (children_of src s (some p)).1 = some ((sortDescs ds).map (childEntry src e.node))) := by
  have h1 := children_of_success hrt hf he hds
  rw [h1]
  refine ⟨rfl, ?_, sortDescs_perm ds, filter_sortDescs ds, ?_⟩
  · have hs := sortDescs_sorted ds
    rw [List.map_map, List.pairwise_map]
    exact hs.imp (fun hab => hab)
  · intro hch
    rw [hch, List.nil_append]

/-- C5 witness. -/
theorem C5_amended_fetch_appends_sorted_block_witness :
    (children_of twoSrc (tw_set_root_node twoSrc initState 0) (some [])).1 =
      some ((sortDescs [⟨2, 2, 2⟩, ⟨1, 1, 1⟩]).map (childEntry twoSrc 0)) ∧
    List.Perm (sortDescs [⟨2, 2, 2⟩, ⟨1, 1, 1⟩]) [⟨2, 2, 2⟩, ⟨1, 1, 1⟩] := by
  have h := C5_amended_fetch_appends_sorted_block
    (show (tw_set_root_node twoSrc initState 0).root = some (Entry.mk 0 0 0 0 []) from rfl)
    (show findAt (Entry.mk 0 0 0 0 []) [] = some (Entry.mk 0 0 0 0 []) from rfl)
    (by decide)
    (show twoSrc.descs (Entry.mk 0 0 0 0 []).node = some [⟨2, 2, 2⟩, ⟨1, 1, 1⟩] from rfl)
  exact ⟨h.2.2.2.2 rfl, h.2.2.1⟩

/-- C6, counterexample.  The claim states that `invalidate` (the code's
`reset_cache`) clears the fetched flag and discards the entry's cached
children.  On the code, `reset_cache` only removes the node from `_fetched`;
after a successful one-child fetch followed by `reset_cache`, the root item
still has its one cached child row. -/
theorem C6_counterexample_reset_keeps_children :
    ((reset_cache (children_of oneSrc (tw_set_root_node oneSrc initState 0) (some [])).2
        0).root.map (fun rt => rt.children.length)) = some 1 ∧
    ¬ ((reset_cache (children_of oneSrc (tw_set_root_node oneSrc initState 0) (some [])).2
        0).root.map (fun rt => rt.children.length)) = some 0 ∧
    (reset_cache (children_of oneSrc (tw_set_root_node oneSrc initState 0) (some [])).2
      0).fetched = [] :=
  ⟨by decide, by decide, by decide⟩

/-- C6, amended.  `reset_cache` on an entry's node removes the node from
`_fetched` but keeps the item tree — and so the entry's cached children —
untouched; the next expansion of that entry issues a new
`get_children_descriptions` call even for an identical reply, and appends
the freshly built children after the stale cached ones. -/
theorem C6_amended_reset_clears_flag_keeps_children {src : NodeSource}
    {s : CacheState} {p : List Nat} {rt e : Entry} {ds : List Desc}
    (hrt : s.root = some rt) (hf : findAt rt p = some e)
    (hnd : s.fetched.Nodup) (hds : src.descs e.node = some ds) :
    (reset_cache s e.node).root = s.root ∧
    e.node ∉ (reset_cache s e.node).fetched ∧
    (children_of src (reset_cache s e.node) (some p)).2.calls = s.calls + 1 ∧
    (children_of src (reset_cache s e.node) (some p)).1 =
      some (e.children ++ (sortDescs ds).map (childEntry src e.node)) := by
  have he2 : e.node ∉ (reset_cache s e.node).fetched := hnd.not_mem_erase
  have h1 := children_of_success
    (show (reset_cache s e.node).root = some rt from hrt) hf he2 hds
  rw [h1]
  exact ⟨rfl, he2, rfl, rfl⟩

/-- C6 witness. -/
theorem C6_amended_reset_clears_flag_keeps_children_witness :
    (reset_cache (children_of oneSrc (tw_set_root_node oneSrc initState 0) (some [])).2
        0).root =
      (children_of oneSrc (tw_set_root_node oneSrc initState 0) (some [])).2.root ∧
    (children_of oneSrc
      (reset_cache (children_of oneSrc (tw_set_root_node oneSrc initState 0) (some [])).2 0)
      (some [])).2.calls =
      (children_of oneSrc (tw_set_root_node oneSrc initState 0) (some [])).2.calls + 1 := by
  have h := C6_amended_reset_clears_flag_keeps_children
    (show (children_of oneSrc (tw_set_root_node oneSrc initState 0) (some [])).2.root =
      some (Entry.mk 0 0 0 0 [Entry.mk 1 1 1 1 []]) from rfl)
    (show findAt (Entry.mk 0 0 0 0 [Entry.mk 1 1 1 1 []]) [] =
      some (Entry.mk 0 0 0 0 [Entry.mk 1 1 1 1 []]) from rfl)
    (by decide)
    (show oneSrc.descs (Entry.mk 0 0 0 0 [Entry.mk 1 1 1 1 []]).node =
      some [⟨1, 1, 1⟩] from rfl)
  exact ⟨h.1, h.2.2.1⟩

/-- C7, counterexample.  The claim states that no reachable cache state
holds two distinct entries with the same identity under one root.  On the
code, the public sequence `set_root`, `children_of`, `invalidate`,
`children_of` (with an unchanged one-child source) appends the re-fetched
child next to the stale one: the tree then carries node identities
`[0, 1, 1]`, with the identity `1` on two distinct child entries. -/
theorem C7_counterexample_duplicate_identities :
    ((children_of oneSrc
        (reset_cache (children_of oneSrc (tw_set_root_node oneSrc initState 0) (some [])).2 0)
        (some [])).2.root.map allNodes) = some [0, 1, 1] ∧
    ¬ ([0, 1, 1] : List Nat).Nodup :=
  ⟨by decide, by decide⟩

/-- C7, amended.  In every state reachable from `set_root` by `hasChildren`
and `children_of` interactions alone — no `reset_cache` — the node
identities in the cached tree are pairwise distinct, provided the source
resolves child links without aliasing (`SourceOK`: `get_child` is injective,
never yields the root identity, and sibling description lists carry
pairwise distinct browse names).  With `reset_cache` in the history, or with
duplicated sibling browse names, duplicates can occur as in the
counterexample. -/
theorem C7_amended_identities_nodup {src : NodeSource} {r0 : Nat}
    (hok : SourceOK src r0) (ops : List QOp) (s0 : CacheState) {rt : Entry}
    (hrt : (run src ops (tw_set_root_node src s0 r0)).root = some rt) :
    (allNodes rt).Nodup := by
  obtain ⟨rt2, hrt2, -, -, hnd, -⟩ := InvS_run hok ops _ (InvS_tw_set_root_node src s0 r0)
  rw [hrt2] at hrt
  cases hrt
  exact hnd

/-- C7 witness. -/
theorem C7_amended_identities_nodup_witness :
    (allNodes (Entry.mk 0 0 0 0 [])).Nodup := by
  have hok : SourceOK okSrc 0 := by
    refine ⟨?_, ?_, ?_⟩
    · intro q b q2 b2 h
      exact Nat.pair_eq_pair.mp (Nat.succ_injective h)
    · intro q b h
      exact Nat.succ_ne_zero _ h
    · intro q l h
      cases (show some ([] : List Desc) = some l from h)
      simp
  exact C7_amended_identities_nodup hok [QOp.childrenOf (some [])] initState
    (show (run okSrc [QOp.childrenOf (some [])] (tw_set_root_node okSrc initState 0)).root =
      some (Entry.mk 0 0 0 0 []) from rfl)

/-- C8, confirmed.  `reset_cache` on a node is a frame-preserving update:
the item tree (hence every entry's cached children) and the call counter are
unchanged, and for every node other than the given one, membership in
`_fetched` — the fetched status — is exactly as before. -/
theorem C8_reset_cache_frame (s : CacheState) (n : Nat) :
    (reset_cache s n).root = s.root ∧
    (reset_cache s n).calls = s.calls ∧
    ∀ m, m ≠ n → (m ∈ (reset_cache s n).fetched ↔ m ∈ s.fetched) := by
  refine ⟨rfl, rfl, fun m hm => ?_⟩
  show m ∈ s.fetched.erase n ↔ m ∈ s.fetched
  exact List.mem_erase_of_ne hm

/-- C8 witness. -/
theorem C8_reset_cache_frame_witness :
    (reset_cache { root := none, fetched := [1, 2], calls := 5 } 2).root = none ∧
    (1 ∈ (reset_cache { root := none, fetched := [1, 2], calls := 5 } 2).fetched ↔
      1 ∈ [1, 2]) := by
  have h := C8_reset_cache_frame { root := none, fetched := [1, 2], calls := 5 } 2
  exact ⟨h.1, h.2.2 1 (by decide)⟩

/-- C9, confirmed.  `TreeWidget.set_root_node` (clear followed by the
model's `set_root_node`) replaces whatever tree was cached — the result does
not depend on the prior state — by the single root item built from the
source's description of the given node, with empty `_fetched` and no cached
children: the tree then holds exactly that root identity. -/
theorem C9_set_root_replaces (src : NodeSource) (s : CacheState) (n : Nat) :
    (tw_set_root_node src s n).root =
      some (Entry.mk (src.dnameOf n) (src.bnameOf n) (src.nidOf n) n []) ∧
    (tw_set_root_node src s n).fetched = [] ∧
    (tw_set_root_node src s n).root.map allNodes = some [n] ∧
    (tw_set_root_node src s n).root.map Entry.children = some [] := by
  refine ⟨rfl, rfl, ?_, rfl⟩
  show (some (Entry.mk (src.dnameOf n) (src.bnameOf n) (src.nidOf n) n [])).map allNodes =
    some [n]
  simp

/-- C10, confirmed.  A single `canFetchMore` on a valid, not-yet-fetched
entry returns true and records the entry's node in `_fetched` before any
children are retrieved: the tree and the source-call counter are unchanged,
and an immediately repeated `canFetchMore` returns false without modifying
anything — even though `fetchMore` was never invoked and the entry has no
cached children. -/
theorem C10_canFetchMore_marks {s : CacheState} {p : List Nat} {rt e : Entry}
    (hrt : s.root = some rt) (hf : findAt rt p = some e) (he : e.node ∉ s.fetched) :
    (canFetchMore s (some p)).1 = true ∧
    e.node ∈ (canFetchMore s (some p)).2.fetched ∧
    (canFetchMore s (some p)).2.root = s.root ∧
    (canFetchMore s (some p)).2.calls = s.calls ∧
    (canFetchMore (canFetchMore s (some p)).2 (some p)).1 = false ∧
    (canFetchMore (canFetchMore s (some p)).2 (some p)).2 = (canFetchMore s (some p)).2 := by
  have h1 := canFetchMore_unfetched hrt hf he
  rw [h1]
  have h2 := canFetchMore_fetched
    (show ({ s with fetched := s.fetched ++ [e.node] } : CacheState).root = some rt from hrt)
    hf (by simp)
  refine ⟨rfl, by simp, rfl, rfl, ?_, ?_⟩
  · show (canFetchMore { s with fetched := s.fetched ++ [e.node] } (some p)).1 = false
    rw [h2]
  · show (canFetchMore { s with fetched := s.fetched ++ [e.node] } (some p)).2 = _
    rw [h2]

/-- C10 witness. -/
theorem C10_canFetchMore_marks_witness :
    (canFetchMore (tw_set_root_node emptySrc initState 0) (some [])).1 = true ∧
    (canFetchMore (canFetchMore (tw_set_root_node emptySrc initState 0) (some [])).2
      (some [])).1 = false := by
  have h := C10_canFetchMore_marks
    (show (tw_set_root_node emptySrc initState 0).root = some (Entry.mk 0 0 0 0 []) from rfl)
    (show findAt (Entry.mk 0 0 0 0 []) [] = some (Entry.mk 0 0 0 0 []) from rfl)
    (by decide)
  exact ⟨h.1, h.2.2.2.2.1⟩

end TreeModel
